import Mathlib

/-!
# Verification of the MEOS span / temporal algebra surface

The repository exposes (in `meos.h`) a declaration surface for spans,
span sets, temporal values and an aggregation skip list.  The function
bodies are not part of the repository sources, so the operations below
are shallow embeddings modelled from the repository's specification, as
indicated in each doc comment.  Base types are embedded as follows:
machine integers and timestamps become `Int`, doubles become `ℚ`, and
the span algebra is developed generically over a linear order.
-/

set_option linter.unusedSectionVars false

namespace Meos

/-- The `Span` structure of `meos.h` (`types.c`): lower/upper bound values
with inclusivity flags.  The base-type tag is replaced by the type
parameter `α`. -/
structure Span (α : Type) where
  lower : α
  upper : α
  lower_inc : Bool
  upper_inc : Bool
  deriving Repr, DecidableEq

variable {α : Type} [LinearOrder α]

/-- A lower bound `(l, li)` lies at or before an upper bound `(u, ui)` with
room for at least one point: the basic bound comparison used by the span
algebra (`meos.h` predicates are "defined via bound comparisons only"). -/
def lowLE (l : α) (li : Bool) (u : α) (ui : Bool) : Prop :=
  l < u ∨ (l = u ∧ li = true ∧ ui = true)

instance (l : α) (li : Bool) (u : α) (ui : Bool) : Decidable (lowLE l li u ui) := by
  unfold lowLE; infer_instance

/-- A span is valid (nonempty): its lower bound admits a point before its
upper bound.  Spec: "Invariant: `lower ≤ upper`; if `lower == upper` then
both inclusivity flags must be true". -/
def Span.Valid (s : Span α) : Prop :=
  lowLE s.lower s.lower_inc s.upper s.upper_inc

instance (s : Span α) : Decidable s.Valid := by
  unfold Span.Valid; infer_instance

/-- Membership of a point in a span, respecting the inclusivity flags. -/
def Span.mem (x : α) (s : Span α) : Prop :=
  (s.lower < x ∨ (s.lower = x ∧ s.lower_inc = true)) ∧
  (x < s.upper ∨ (x = s.upper ∧ s.upper_inc = true))

instance (x : α) (s : Span α) : Decidable (s.mem x) := by
  unfold Span.mem; infer_instance

/-- Modelled from the spec: `overlaps_span_span` — topological overlap of
two spans, decided by bound comparisons only (each lower bound at or
before the other span's upper bound). -/
def span_overlaps (s1 s2 : Span α) : Prop :=
  lowLE s1.lower s1.lower_inc s2.upper s2.upper_inc ∧
  lowLE s2.lower s2.lower_inc s1.upper s1.upper_inc

instance (s1 s2 : Span α) : Decidable (span_overlaps s1 s2) := by
  unfold span_overlaps; infer_instance

/-- Modelled from the spec: `adjacent_span_span` — the spans touch at a
common boundary value where exactly one of the two flags is inclusive. -/
def span_adjacent (s1 s2 : Span α) : Prop :=
  (s1.upper = s2.lower ∧ s1.upper_inc ≠ s2.lower_inc) ∨
  (s2.upper = s1.lower ∧ s2.upper_inc ≠ s1.lower_inc)

instance (s1 s2 : Span α) : Decidable (span_adjacent s1 s2) := by
  unfold span_adjacent; infer_instance

/-- The tighter (larger) of two lower bounds: at equal values the
exclusive flag wins (conjunction of inclusivities). -/
def maxLowerBnd (s1 s2 : Span α) : α × Bool :=
  if s1.lower < s2.lower then (s2.lower, s2.lower_inc)
  else if s2.lower < s1.lower then (s1.lower, s1.lower_inc)
  else (s1.lower, s1.lower_inc && s2.lower_inc)

/-- The tighter (smaller) of two upper bounds: at equal values the
exclusive flag wins (conjunction of inclusivities). -/
def minUpperBnd (s1 s2 : Span α) : α × Bool :=
  if s1.upper < s2.upper then (s1.upper, s1.upper_inc)
  else if s2.upper < s1.upper then (s2.upper, s2.upper_inc)
  else (s1.upper, s1.upper_inc && s2.upper_inc)

/-- Modelled from the spec: `intersection_span_span` — "empty result
(null) if bound ranges do not overlap; otherwise max of lowers / min of
uppers with inclusivity resolved by the tighter side". -/
def intersection_span_span (s1 s2 : Span α) : Option (Span α) :=
  let lb := maxLowerBnd s1 s2
  let ub := minUpperBnd s1 s2
  if lowLE lb.1 lb.2 ub.1 ub.2 then some ⟨lb.1, ub.1, lb.2, ub.2⟩ else none

/-- Total order on spans by lower bound used for sorting (`span_cmp`
orders "first by lower bound, then by lower-inclusivity (exclusive sorts
after inclusive at equal value)"). -/
def span_lower_le (s1 s2 : Span α) : Prop :=
  s1.lower < s2.lower ∨
  (s1.lower = s2.lower ∧ (s2.lower_inc = true → s1.lower_inc = true))

instance : DecidableRel (span_lower_le (α := α)) := fun _ _ => by
  unfold span_lower_le; infer_instance

/-- Consecutive-span separation in a normalized span set: the first span
ends strictly before the second begins, with no shared and no touching
boundary (at an equal boundary value both flags are exclusive). -/
def gapB (s1 s2 : Span α) : Prop :=
  s1.upper < s2.lower ∨
  (s1.upper = s2.lower ∧ s1.upper_inc = false ∧ s2.lower_inc = false)

instance (s1 s2 : Span α) : Decidable (gapB s1 s2) := by
  unfold gapB; infer_instance

/-- The looser (smaller) of two lower bounds: at equal values the
inclusive flag wins (disjunction of inclusivities). -/
def minLowerBnd (s1 s2 : Span α) : α × Bool :=
  if s1.lower < s2.lower then (s1.lower, s1.lower_inc)
  else if s2.lower < s1.lower then (s2.lower, s2.lower_inc)
  else (s1.lower, s1.lower_inc || s2.lower_inc)

/-- The looser (larger) of two upper bounds: at equal values the
inclusive flag wins (disjunction of inclusivities). -/
def maxUpperBnd (s1 s2 : Span α) : α × Bool :=
  if s1.upper < s2.upper then (s2.upper, s2.upper_inc)
  else if s2.upper < s1.upper then (s1.upper, s1.upper_inc)
  else (s1.upper, s1.upper_inc || s2.upper_inc)

/-- The single span covering two overlapping or adjacent spans: looser
bound on each side. -/
def spanUnion (s1 s2 : Span α) : Span α :=
  ⟨(minLowerBnd s1 s2).1, (maxUpperBnd s1 s2).1,
   (minLowerBnd s1 s2).2, (maxUpperBnd s1 s2).2⟩

/-- Two spans can be merged into one during normalization when they
overlap or are adjacent. -/
def canMergeB (s1 s2 : Span α) : Bool :=
  decide (span_overlaps s1 s2) || decide (span_adjacent s1 s2)

/-- One normalization sweep over a lower-bound-sorted list of spans:
merge the current span with the next while they overlap or are
adjacent, emit it when a gap follows. -/
def mergeSpans : Span α → List (Span α) → List (Span α)
  | cur, [] => [cur]
  | cur, s :: rest =>
    if canMergeB cur s then mergeSpans (spanUnion cur s) rest
    else cur :: mergeSpans s rest

/-- The `SpanSet` structure of `meos.h`: normalized span list plus the
cached bounding span. -/
structure SpanSet (α : Type) where
  elems : List (Span α)
  span : Span α
  deriving Repr, DecidableEq

variable [Inhabited α]

/-- The span from the first element's lower bound to the last element's
upper bound of a nonempty span list. -/
def spanBounding : List (Span α) → Span α
  | [] => ⟨default, default, true, true⟩
  | s :: rest =>
    let t := (s :: rest).getLast (List.cons_ne_nil s rest)
    ⟨s.lower, t.upper, s.lower_inc, t.upper_inc⟩

/-- Normalize a list of spans: sort by lower bound, then merge
overlapping or adjacent neighbours. -/
def normSpans (l : List (Span α)) : List (Span α) :=
  match List.insertionSort span_lower_le l with
  | [] => []
  | s :: rest => mergeSpans s rest

/-- Modelled from the spec: `spanset_make` — normalizes its input
("adjacent or overlapping spans are merged on construction", sorted by
lower bound) and caches the bounding span; an empty result is the
absent (null) value. -/
def spanset_make (l : List (Span α)) : Option (SpanSet α) :=
  match normSpans l with
  | [] => none
  | s :: rest => some ⟨s :: rest, spanBounding (s :: rest)⟩

/-- Modelled from the spec: `spanset_span` — the bounding span derived
from the elements, `[spans[0].lower, spans[last].upper]`. -/
def spanset_span (ss : SpanSet α) : Span α :=
  spanBounding ss.elems

/-- Modelled from the spec: `union_span_span` — the normalized span set
holding both spans ("union of two overlapping/adjacent spans yields one
span; non-overlapping non-adjacent union ... requires promotion to a
SpanSet"). -/
def union_span_span (s1 s2 : Span α) : Option (SpanSet α) :=
  spanset_make [s1, s2]

/-- Modelled from the spec: `minus_span_span` — interior subtraction
"may yield zero, one, or two resulting spans"; an empty result is the
absent (null) value. -/
def minus_span_span (s1 s2 : Span α) : Option (SpanSet α) :=
  if span_overlaps s1 s2 then
    let left : Span α := ⟨s1.lower, s2.lower, s1.lower_inc, !s2.lower_inc⟩
    let right : Span α := ⟨s2.upper, s1.upper, !s2.upper_inc, s1.upper_inc⟩
    spanset_make ((if left.Valid then [left] else []) ++
                  (if right.Valid then [right] else []))
  else spanset_make [s1]

/-- The normalization invariant of a span set (spec, data model): at
least one element, elements sorted by lower bound, pairwise separated by
a gap (hence disjoint and non-adjacent), all valid, and the cached
bounding span equal to the derived one, running from the first
element's lower bound to the last element's upper bound. -/
def SpanSetInv (ss : SpanSet α) : Prop :=
  ss.elems ≠ [] ∧
  List.Pairwise span_lower_le ss.elems ∧
  List.Pairwise gapB ss.elems ∧
  List.Pairwise (fun a b => ¬ span_adjacent a b) ss.elems ∧
  List.Pairwise (fun a b => ∀ x : α, ¬ (a.mem x ∧ b.mem x)) ss.elems ∧
  (∀ s ∈ ss.elems, s.Valid) ∧
  ss.span = spanset_span ss ∧
  ∃ h : ss.elems ≠ [],
    ss.span.lower = (ss.elems.head h).lower ∧
    ss.span.upper = (ss.elems.getLast h).upper

/-- Modelled from the spec: `intspan_make` — integer spans are
canonicalized so "`[a,b]` and `[a,b+1)` collapse to one canonical form";
constructors "validate `lower ≤ upper`" and reject empty spans with an
absent (null) result. -/
def intspan_make (lower upper : Int) (lower_inc upper_inc : Bool) : Option (Span Int) :=
  let l := if lower_inc then lower else lower + 1
  let u := if upper_inc then upper + 1 else upper
  if l < u then some ⟨l, u, true, false⟩ else none

/-- Modelled from the spec: the continuous-domain span constructor —
validates that the bounds admit a nonempty span (`lower ≤ upper`, and a
single-point span must be inclusive on both sides), otherwise returns
the absent (null) result. -/
def span_make_cont (lower upper : α) (lower_inc upper_inc : Bool) : Option (Span α) :=
  if lowLE lower lower_inc upper upper_inc then
    some ⟨lower, upper, lower_inc, upper_inc⟩
  else none

/-- Modelled from the spec: `floatspan_make` (doubles embedded as ℚ). -/
def floatspan_make (lower upper : ℚ) (lower_inc upper_inc : Bool) : Option (Span ℚ) :=
  span_make_cont lower upper lower_inc upper_inc

/-- Modelled from the spec: `tstzspan_make` (timestamps embedded as
`Int` microseconds; timestamp spans are not discrete-canonicalized). -/
def tstzspan_make (lower upper : Int) (lower_inc upper_inc : Bool) : Option (Span Int) :=
  span_make_cont lower upper lower_inc upper_inc

/-- The `TInstant` structure of `meos.h`: one (value, timestamp) pair.
Timestamps are embedded as `Int`. -/
structure TInstant (α : Type) where
  value : α
  t : Int
  deriving Repr, DecidableEq

/-- The interpolation mode of a sequence (spec data model). -/
inductive Interp
  | discrete
  | step
  | linear
  deriving Repr, DecidableEq

/-- The `TSequence` structure of `meos.h`: instants ordered by strictly
increasing timestamp, boundary inclusivity flags, interpolation mode. -/
structure TSeq (α : Type) where
  instants : List (TInstant α)
  lower_inc : Bool
  upper_inc : Bool
  interp : Interp
  deriving Repr, DecidableEq

/-- The `TSequenceSet` structure of `meos.h`: ordered disjoint
sequences sharing one interpolation mode. -/
structure TSeqSet (α : Type) where
  seqs : List (TSeq α)
  interp : Interp
  deriving Repr, DecidableEq

/-- The `Temporal` tagged union of `meos.h`, as a sum type over the
three subtypes (spec design note). -/
inductive Temporal (α : Type)
  | inst (i : TInstant α)
  | seq (s : TSeq α)
  | seqset (ss : TSeqSet α)
  deriving Repr, DecidableEq

/-- All instants of a temporal value, in timestamp order. -/
def Temporal.instants : Temporal α → List (TInstant α)
  | .inst i => [i]
  | .seq s => s.instants
  | .seqset ss => (ss.seqs.map TSeq.instants).flatten

/-- The interpolation mode of a temporal value; a lone instant is
discrete. -/
def Temporal.interpOf : Temporal α → Interp
  | .inst _ => Interp.discrete
  | .seq s => s.interp
  | .seqset ss => ss.interp

/-- The time span of a temporal value: from its first to its last
timestamp (both inclusive), absent for no instants. -/
def Temporal.timeSpan (temp : Temporal α) : Option (Span Int) :=
  match temp.instants with
  | [] => none
  | i :: rest =>
    some ⟨i.t, ((i :: rest).getLast (List.cons_ne_nil i rest)).t, true, true⟩

/-- Well-formedness of a temporal value at the instant level: at least
one instant, timestamps strictly increasing. -/
def strictIncB : List (TInstant α) → Bool
  | [] => true
  | [_] => true
  | a :: b :: r => decide (a.t < b.t) && strictIncB (b :: r)

/-- A temporal value with at least one instant and strictly increasing
timestamps (spec invariants of the data model). -/
def TemporalWF (temp : Temporal α) : Prop :=
  temp.instants ≠ [] ∧ strictIncB temp.instants = true

instance (temp : Temporal α) : Decidable (TemporalWF temp) := by
  unfold TemporalWF; infer_instance

/-- Modelled from the spec: `tsequence_make` — "validates strictly
increasing timestamps", rejects an empty instant array, and "`discrete`
interpolation forbids exclusive boundaries". -/
def tsequence_make (l : List (TInstant α)) (lower_inc upper_inc : Bool)
    (interp : Interp) : Option (TSeq α) :=
  if l = [] then none
  else if strictIncB l = true then
    if interp = Interp.discrete ∧ (lower_inc = false ∨ upper_inc = false) then none
    else some ⟨l, lower_inc, upper_inc, interp⟩
  else none

/-- Modelled from the spec: `temporal_instant_n` — the `n`-th instant,
1-based, absent when out of range. -/
def temporal_instant_n (temp : Temporal α) (n : Nat) : Option (TInstant α) :=
  temp.instants.get? (n - 1)

/-- The linear blend of two instants' values at the fractional position
of `t` between their timestamps (spec: "linear blend on the fractional
position"). -/
def blend (i j : TInstant ℚ) (t : Int) : ℚ :=
  i.value + (j.value - i.value) * (((t : ℚ) - (i.t : ℚ)) / ((j.t : ℚ) - (i.t : ℚ)))

/-- Modelled from the spec: value lookup over the instant list — "exact
hit returns the stored value; for `linear` interpolation a miss between
two bracketing instants returns the interpolated value (linear blend on
the fractional position) if `strict=false`". For `step`, the previous
instant's value is held; `discrete` has no inferred values between
instants. -/
def valueAtInstants (interp : Interp) (strict : Bool) (t : Int) :
    List (TInstant ℚ) → Option ℚ
  | [] => none
  | i :: rest =>
    if t = i.t then some i.value
    else if t < i.t then none
    else
      match rest with
      | [] => none
      | j :: _ =>
        if t < j.t then
          match interp with
          | Interp.linear => if strict then none else some (blend i j t)
          | Interp.step => if strict then none else some i.value
          | Interp.discrete => none
        else valueAtInstants interp strict t rest

/-- Modelled from the spec: `tsequence_value_at_timestamptz`. -/
def tsequence_value_at_timestamptz (seq : TSeq ℚ) (t : Int) (strict : Bool) : Option ℚ :=
  valueAtInstants seq.interp strict t seq.instants

/-- Modelled from the spec: `tfloat_value_at_timestamptz`, dispatching
on the subtype. -/
def tfloat_value_at_timestamptz (temp : Temporal ℚ) (t : Int) (strict : Bool) : Option ℚ :=
  match temp with
  | .inst i => if t = i.t then some i.value else none
  | .seq s => tsequence_value_at_timestamptz s t strict
  | .seqset ss =>
    ss.seqs.foldr
      (fun sq acc => (tsequence_value_at_timestamptz sq t strict).orElse (fun _ => acc))
      none

variable [DecidableEq α]

/-- Modelled from the spec: rebuilding a temporal value from an instant
list, compacted "to widest applicable representation": absent when
empty, an instant when a discrete singleton, else a sequence. -/
def temporal_from_instants (interp : Interp) : List (TInstant α) → Option (Temporal α)
  | [] => none
  | [i] =>
    if interp = Interp.discrete then some (.inst i)
    else some (.seq ⟨[i], true, true, interp⟩)
  | l => some (.seq ⟨l, true, true, interp⟩)

/-- Fuel-driven merge of two timestamp-sorted instant lists; instants
carried at a common timestamp must agree on the value, else the merge
fails.  The fuel only bounds the recursion depth; with fuel at least
the total length it never runs out. -/
def mergeInstantsGo : Nat → List (TInstant α) → List (TInstant α) →
    Option (List (TInstant α))
  | _, [], l2 => some l2
  | _, i1 :: r1, [] => some (i1 :: r1)
  | 0, _ :: _, _ :: _ => none
  | fuel + 1, i1 :: r1, i2 :: r2 =>
    if i1.t < i2.t then (mergeInstantsGo fuel r1 (i2 :: r2)).map (i1 :: ·)
    else if i2.t < i1.t then (mergeInstantsGo fuel (i1 :: r1) r2).map (i2 :: ·)
    else if i1.value = i2.value then (mergeInstantsGo fuel r1 r2).map (i1 :: ·)
    else none

/-- Merge two timestamp-sorted instant lists in time order; a value
conflict at a shared timestamp fails. -/
def mergeInstants (l1 l2 : List (TInstant α)) : Option (List (TInstant α)) :=
  mergeInstantsGo (l1.length + l2.length) l1 l2

/-- Modelled from the spec: `temporal_merge` — an absent operand acts as
the identity; interpolation modes must match; instants are spliced in
time order and a value conflict at a shared timestamp makes the merge
fail with an absent result. -/
def temporal_merge (t1 t2 : Option (Temporal α)) : Option (Temporal α) :=
  match t1, t2 with
  | none, none => none
  | none, some b => some b
  | some a, none => some a
  | some a, some b =>
    if a.interpOf = b.interpOf then
      match mergeInstants a.instants b.instants with
      | none => none
      | some l => temporal_from_instants a.interpOf l
    else none

/-- The `MEOS_ERR_INVALID_ARG_VALUE` code of `meos.h`. -/
def MEOS_ERR_INVALID_ARG_VALUE : Nat := 12

/-- Modelled from the spec: the error-reporting wrapper of
`temporal_merge` — "every fallible constructor/operation returns an
explicit absent/null result and records a structured error (code +
message) in the external error sink". -/
def temporal_merge_err (t1 t2 : Option (Temporal α)) :
    Option (Temporal α) × Option Nat :=
  match temporal_merge t1 t2 with
  | some r => (some r, none)
  | none => (none, some MEOS_ERR_INVALID_ARG_VALUE)

/-- The two temporal values agree at a shared boundary timestamp `p`. -/
def touchValuesOK (t1 t2 : Temporal α) (p : Int) : Prop :=
  ∀ i1 ∈ t1.instants, ∀ i2 ∈ t2.instants, i1.t = p → i2.t = p → i1.value = i2.value

instance (t1 t2 : Temporal α) (p : Int) : Decidable (touchValuesOK t1 t2 p) := by
  unfold touchValuesOK; infer_instance

/-- The merge precondition as the specification sentence states it:
"their time spans be disjoint or only boundary-touching with equal
values at the touch point". -/
def merge_spans_compatible (t1 t2 : Temporal α) : Prop :=
  ∀ sp1 ∈ t1.timeSpan.toList, ∀ sp2 ∈ t2.timeSpan.toList,
    ¬ span_overlaps sp1 sp2 ∨
    (sp1.upper = sp2.lower ∧ touchValuesOK t1 t2 sp1.upper) ∨
    (sp2.upper = sp1.lower ∧ touchValuesOK t1 t2 sp2.upper)

instance (t1 t2 : Temporal α) : Decidable (merge_spans_compatible t1 t2) := by
  unfold merge_spans_compatible; infer_instance

/-- The `SKIPLIST_MAXLEVEL` constant of `meos.h`. -/
def SKIPLIST_MAXLEVEL : Nat := 32

/-- A node of the aggregation skip list (`SkipListElem` of `meos.h`):
an aggregate value keyed by time position plus the node height. -/
structure SLNode where
  t : Int
  count : Int
  height : Nat
  deriving Repr, DecidableEq

/-- The aggregation state (`SkipList` of `meos.h`): the ordered node
list plus the seed driving the randomized height choice. -/
structure SkipListState where
  elems : List SLNode
  seed : Nat
  deriving Repr, DecidableEq

/-- Modelled from the spec: the pseudo-random seed stream behind the
"randomized-height insertion" (a linear congruential step, reduced
mod 2^31). -/
def nextSeed (s : Nat) : Nat := (s * 1103515245 + 12345) % 2 ^ 31

/-- Modelled from the spec: "node height chosen randomly, bounded by a
maximum level" — a height in `1..SKIPLIST_MAXLEVEL` drawn from the
seed. -/
def randHeight (s : Nat) : Nat := s % SKIPLIST_MAXLEVEL + 1

/-- Insert a node at its time position; "positions whose time ranges
overlap trigger a local combine (e.g., sum the overlapping counts)
rather than a duplicate entry". -/
def slInsert (n : SLNode) : List SLNode → List SLNode
  | [] => [n]
  | m :: rest =>
    if n.t < m.t then n :: m :: rest
    else if n.t = m.t then { m with count := m.count + n.count } :: rest
    else m :: slInsert n rest

/-- One instant's contribution to the running count aggregate. -/
def tcountStep (st : SkipListState) (i : TInstant α) : SkipListState :=
  { elems := slInsert ⟨i.t, 1, randHeight st.seed⟩ st.elems
    seed := nextSeed st.seed }

/-- Modelled from the spec: `temporal_tcount_transfn` — created empty on
the first aggregation step, then each transition call "inserts the new
value's contribution at its correct time position". -/
def temporal_tcount_transfn (state : Option SkipListState) (temp : Temporal α) :
    SkipListState :=
  temp.instants.foldl tcountStep (state.getD ⟨[], 0⟩)

/-- `lowLE` against the tighter of two lower bounds is the conjunction of
the comparisons against each. -/
theorem lowLE_maxLowerBnd (s1 s2 : Span α) (u : α) (ui : Bool) :
    lowLE (maxLowerBnd s1 s2).1 (maxLowerBnd s1 s2).2 u ui ↔
      (lowLE s1.lower s1.lower_inc u ui ∧ lowLE s2.lower s2.lower_inc u ui) := by
  unfold maxLowerBnd lowLE
  rcases lt_trichotomy s1.lower s2.lower with h | h | h
  · rw [if_pos h]
    constructor
    · rintro (h2 | ⟨rfl, hli, hui⟩)
      · exact ⟨Or.inl (lt_trans h h2), Or.inl h2⟩
      · exact ⟨Or.inl h, Or.inr ⟨rfl, hli, hui⟩⟩
    · rintro ⟨_, h2⟩; exact h2
  · rw [if_neg (by simp [h]), if_neg (by simp [h])]
    rw [← h]
    constructor
    · rintro (h2 | ⟨rfl, hli, hui⟩)
      · exact ⟨Or.inl h2, Or.inl h2⟩
      · rcases Bool.and_eq_true _ _ |>.mp hli with ⟨h1, h2'⟩
        exact ⟨Or.inr ⟨rfl, h1, hui⟩, Or.inr ⟨rfl, h2', hui⟩⟩
    · rintro ⟨h1 | ⟨rfl, ha, hua⟩, h2 | ⟨he, hb, hub⟩⟩
      · exact Or.inl h1
      · exact Or.inl h1
      · exact Or.inl h2
      · exact Or.inr ⟨rfl, by simp [ha, hb], hua⟩
  · rw [if_neg (not_lt_of_gt h), if_pos h]
    constructor
    · rintro (h2 | ⟨rfl, hli, hui⟩)
      · exact ⟨Or.inl h2, Or.inl (lt_trans h h2)⟩
      · exact ⟨Or.inr ⟨rfl, hli, hui⟩, Or.inl h⟩
    · rintro ⟨h1, _⟩; exact h1

/-- `lowLE` against the tighter of two upper bounds is the conjunction of
the comparisons against each. -/
theorem lowLE_minUpperBnd (s1 s2 : Span α) (l : α) (li : Bool) :
    lowLE l li (minUpperBnd s1 s2).1 (minUpperBnd s1 s2).2 ↔
      (lowLE l li s1.upper s1.upper_inc ∧ lowLE l li s2.upper s2.upper_inc) := by
  unfold minUpperBnd lowLE
  rcases lt_trichotomy s1.upper s2.upper with h | h | h
  · rw [if_pos h]
    constructor
    · rintro (h2 | ⟨rfl, hli, hui⟩)
      · exact ⟨Or.inl h2, Or.inl (lt_trans h2 h)⟩
      · exact ⟨Or.inr ⟨rfl, hli, hui⟩, Or.inl h⟩
    · rintro ⟨h1, _⟩; exact h1
  · rw [if_neg (by simp [h]), if_neg (by simp [h])]
    rw [← h]
    constructor
    · rintro (h2 | ⟨rfl, hli, hui⟩)
      · exact ⟨Or.inl h2, Or.inl h2⟩
      · rcases Bool.and_eq_true _ _ |>.mp hui with ⟨h1, h2'⟩
        exact ⟨Or.inr ⟨rfl, hli, h1⟩, Or.inr ⟨rfl, hli, h2'⟩⟩
    · rintro ⟨h1 | ⟨rfl, ha, hua⟩, h2 | ⟨he, hb, hub⟩⟩
      · exact Or.inl h1
      · exact Or.inl h1
      · exact Or.inl h2
      · exact Or.inr ⟨rfl, ha, by simp [hua, hub]⟩
  · rw [if_neg (not_lt_of_gt h), if_pos h]
    constructor
    · rintro (h2 | ⟨rfl, hli, hui⟩)
      · exact ⟨Or.inl (lt_trans h2 h), Or.inl h2⟩
      · exact ⟨Or.inl h, Or.inr ⟨rfl, hli, hui⟩⟩
    · rintro ⟨_, h2⟩; exact h2

/-- The intersection candidate is nonempty exactly when the spans
overlap, for valid spans. -/
theorem intersection_cond_iff_overlaps (s1 s2 : Span α)
    (h1 : s1.Valid) (h2 : s2.Valid) :
    lowLE (maxLowerBnd s1 s2).1 (maxLowerBnd s1 s2).2
          (minUpperBnd s1 s2).1 (minUpperBnd s1 s2).2 ↔ span_overlaps s1 s2 := by
  rw [lowLE_maxLowerBnd, lowLE_minUpperBnd, lowLE_minUpperBnd]
  unfold span_overlaps
  unfold Span.Valid at h1 h2
  constructor
  · rintro ⟨⟨_, h12⟩, ⟨h21, _⟩⟩; exact ⟨h12, h21⟩
  · rintro ⟨h12, h21⟩; exact ⟨⟨h1, h12⟩, ⟨h21, h2⟩⟩

/-- The structure-level span: the tighter lower bound's value is the
maximum of the two lower values. -/
theorem maxLowerBnd_fst (s1 s2 : Span α) :
    (maxLowerBnd s1 s2).1 = max s1.lower s2.lower := by
  unfold maxLowerBnd
  rcases lt_trichotomy s1.lower s2.lower with h | h | h
  · rw [if_pos h, max_eq_right (le_of_lt h)]
  · rw [if_neg (by simp [h]), if_neg (by simp [h]), h, max_self]
  · rw [if_neg (not_lt_of_gt h), if_pos h, max_eq_left (le_of_lt h)]

/-- The tighter upper bound's value is the minimum of the two upper
values. -/
theorem minUpperBnd_fst (s1 s2 : Span α) :
    (minUpperBnd s1 s2).1 = min s1.upper s2.upper := by
  unfold minUpperBnd
  rcases lt_trichotomy s1.upper s2.upper with h | h | h
  · rw [if_pos h, min_eq_left (le_of_lt h)]
  · rw [if_neg (by simp [h]), if_neg (by simp [h]), h, min_self]
  · rw [if_neg (not_lt_of_gt h), if_pos h, min_eq_right (le_of_lt h)]

/-- Span membership as two bound comparisons. -/
theorem Span.mem_iff (s : Span α) (x : α) :
    s.mem x ↔ lowLE s.lower s.lower_inc x true ∧ lowLE x true s.upper s.upper_inc := by
  unfold Span.mem lowLE
  simp

/-- C2: `intersection_span_span` returns the absent value exactly when
the spans do not overlap; otherwise its lower bound is the maximum of
the lowers, its upper bound the minimum of the uppers, each with the
inclusivity of the tighter side, and it holds exactly the points common
to both spans. -/
theorem intersection_span_span_correct (s1 s2 : Span α)
    (h1 : s1.Valid) (h2 : s2.Valid) :
    (intersection_span_span s1 s2 = none ↔ ¬ span_overlaps s1 s2) ∧
    ∀ r, intersection_span_span s1 s2 = some r →
      r.lower = max s1.lower s2.lower ∧
      r.upper = min s1.upper s2.upper ∧
      (r.lower, r.lower_inc) = maxLowerBnd s1 s2 ∧
      (r.upper, r.upper_inc) = minUpperBnd s1 s2 ∧
      ∀ x, r.mem x ↔ (s1.mem x ∧ s2.mem x) := by
  have hiff := intersection_cond_iff_overlaps s1 s2 h1 h2
  by_cases hc : lowLE (maxLowerBnd s1 s2).1 (maxLowerBnd s1 s2).2
      (minUpperBnd s1 s2).1 (minUpperBnd s1 s2).2
  · constructor
    · simp only [intersection_span_span, if_pos hc]
      simp [hiff.mp hc]
    · intro r hr
      simp only [intersection_span_span, if_pos hc, Option.some.injEq] at hr
      subst hr
      refine ⟨maxLowerBnd_fst s1 s2, minUpperBnd_fst s1 s2, rfl, rfl, ?_⟩
      intro x
      rw [Span.mem_iff, Span.mem_iff, Span.mem_iff]
      show lowLE (maxLowerBnd s1 s2).1 (maxLowerBnd s1 s2).2 x true ∧
          lowLE x true (minUpperBnd s1 s2).1 (minUpperBnd s1 s2).2 ↔ _
      rw [lowLE_maxLowerBnd, lowLE_minUpperBnd]
      tauto
  · constructor
    · simp only [intersection_span_span, if_neg hc]
      simpa using fun hov => hc (hiff.mpr hov)
    · intro r hr
      simp only [intersection_span_span, if_neg hc] at hr
      exact absurd hr (by simp)

/-- Witness for C2 at concrete integer spans `[1,5)` and `[3,8]`. -/
theorem intersection_span_span_correct_witness :
    ((intersection_span_span (⟨1, 5, true, false⟩ : Span Int) ⟨3, 8, true, true⟩ = none ↔
        ¬ span_overlaps (⟨1, 5, true, false⟩ : Span Int) ⟨3, 8, true, true⟩) ∧
      ∀ r, intersection_span_span (⟨1, 5, true, false⟩ : Span Int) ⟨3, 8, true, true⟩ = some r →
        r.lower = max (1 : Int) 3 ∧
        r.upper = min (5 : Int) 8 ∧
        (r.lower, r.lower_inc) = maxLowerBnd (⟨1, 5, true, false⟩ : Span Int) ⟨3, 8, true, true⟩ ∧
        (r.upper, r.upper_inc) = minUpperBnd (⟨1, 5, true, false⟩ : Span Int) ⟨3, 8, true, true⟩ ∧
        ∀ x, r.mem x ↔
          ((⟨1, 5, true, false⟩ : Span Int).mem x ∧ (⟨3, 8, true, true⟩ : Span Int).mem x)) :=
  intersection_span_span_correct ⟨1, 5, true, false⟩ ⟨3, 8, true, true⟩
    (by decide) (by decide)

/-- C3: subtracting a span from itself yields the empty result (the
absent span set), and intersecting a span with itself returns the span
unchanged. -/
theorem minus_self_empty_inter_self_id (s : Span α) (h : s.Valid) :
    minus_span_span s s = none ∧ intersection_span_span s s = some s := by
  constructor
  · unfold minus_span_span
    rw [if_pos (show span_overlaps s s from ⟨h, h⟩)]
    have hleft : ¬ (Span.Valid (⟨s.lower, s.lower, s.lower_inc, !s.lower_inc⟩ : Span α)) := by
      unfold Span.Valid lowLE
      rintro (h' | ⟨-, hli, hni⟩)
      · exact lt_irrefl _ h'
      · rw [hli] at hni; simp at hni
    have hright : ¬ (Span.Valid (⟨s.upper, s.upper, !s.upper_inc, s.upper_inc⟩ : Span α)) := by
      unfold Span.Valid lowLE
      rintro (h' | ⟨-, hni, hui⟩)
      · exact lt_irrefl _ h'
      · rw [hui] at hni; simp at hni
    dsimp only
    rw [if_neg hleft, if_neg hright]
    rfl
  · have hmax : maxLowerBnd s s = (s.lower, s.lower_inc) := by
      unfold maxLowerBnd; simp
    have hmin : minUpperBnd s s = (s.upper, s.upper_inc) := by
      unfold minUpperBnd; simp
    simp only [intersection_span_span, hmax, hmin]
    rw [if_pos (show lowLE s.lower s.lower_inc s.upper s.upper_inc from h)]

/-- Witness for C3 at the concrete integer span `[1,5)`. -/
theorem minus_self_empty_inter_self_id_witness :
    minus_span_span (⟨1, 5, true, false⟩ : Span Int) ⟨1, 5, true, false⟩ = none ∧
    intersection_span_span (⟨1, 5, true, false⟩ : Span Int) ⟨1, 5, true, false⟩ =
      some ⟨1, 5, true, false⟩ :=
  minus_self_empty_inter_self_id ⟨1, 5, true, false⟩ (by decide)

/-- A continuous-domain constructor only ever returns a valid span. -/
theorem span_make_cont_some (a b : α) (li ui : Bool) (s : Span α)
    (hs : span_make_cont a b li ui = some s) :
    s.lower ≤ s.upper ∧ (s.lower = s.upper → s.lower_inc = true ∧ s.upper_inc = true) ∧
    s.Valid := by
  unfold span_make_cont at hs
  split at hs
  · rename_i hc
    injection hs with hs
    subst hs
    rcases hc with h | ⟨he, hli, hui⟩
    · exact ⟨le_of_lt h, fun he => absurd he (ne_of_lt h), Or.inl h⟩
    · exact ⟨le_of_eq he, fun _ => ⟨hli, hui⟩, Or.inr ⟨he, hli, hui⟩⟩
  · exact absurd hs (by simp)

/-- A continuous-domain constructor rejects reversed bounds. -/
theorem span_make_cont_rev (a b : α) (li ui : Bool) (hb : b < a) :
    span_make_cont a b li ui = none := by
  unfold span_make_cont
  rw [if_neg]
  rintro (h | ⟨he, -, -⟩)
  · exact lt_asymm hb h
  · rw [he] at hb; exact lt_irrefl _ hb

/-- The integer constructor only ever returns the canonical
inclusive-lower, exclusive-upper form with room for a point. -/
theorem intspan_make_aux (l u : Int) (s : Span Int)
    (hs : (if l < u then some (⟨l, u, true, false⟩ : Span Int) else none) = some s) :
    s.lower < s.upper ∧ s.lower_inc = true ∧ s.upper_inc = false ∧ s.Valid := by
  split at hs
  · rename_i hc
    injection hs with hs
    subst hs
    exact ⟨hc, rfl, rfl, Or.inl hc⟩
  · exact absurd hs (by simp)

/-- The integer constructor only ever returns the canonical
inclusive-lower, exclusive-upper form with room for a point. -/
theorem intspan_make_some (a b : Int) (li ui : Bool) (s : Span Int)
    (hs : intspan_make a b li ui = some s) :
    s.lower < s.upper ∧ s.lower_inc = true ∧ s.upper_inc = false ∧ s.Valid :=
  intspan_make_aux _ _ s hs

/-- The integer constructor rejects reversed bounds. -/
theorem intspan_make_rev (a b : Int) (li ui : Bool) (hb : b < a) :
    intspan_make a b li ui = none := by
  unfold intspan_make
  cases li <;> cases ui <;> simp <;> omega

/-- C5: every span a constructor returns satisfies `lower ≤ upper` with
a single point forcing both flags inclusive (so no empty span is ever
constructed), reversed bounds are rejected with an absent result, and
the discrete integer constructor canonicalizes `[a,b]` and `[a,b+1)` to
one stored form. -/
theorem span_constructors_valid :
    (∀ (a b : Int) (li ui : Bool) (s : Span Int), intspan_make a b li ui = some s →
      s.lower < s.upper ∧ s.lower_inc = true ∧ s.upper_inc = false ∧ s.Valid) ∧
    (∀ (a b : ℚ) (li ui : Bool) (s : Span ℚ), floatspan_make a b li ui = some s →
      s.lower ≤ s.upper ∧ (s.lower = s.upper → s.lower_inc = true ∧ s.upper_inc = true) ∧
      s.Valid) ∧
    (∀ (a b : Int) (li ui : Bool) (s : Span Int), tstzspan_make a b li ui = some s →
      s.lower ≤ s.upper ∧ (s.lower = s.upper → s.lower_inc = true ∧ s.upper_inc = true) ∧
      s.Valid) ∧
    (∀ (a b : Int) (li ui : Bool), b < a → intspan_make a b li ui = none) ∧
    (∀ (a b : ℚ) (li ui : Bool), b < a → floatspan_make a b li ui = none) ∧
    (∀ (a b : Int) (li ui : Bool), b < a → tstzspan_make a b li ui = none) ∧
    (∀ a b : Int, intspan_make a b true true = intspan_make a (b + 1) true false) := by
  refine ⟨intspan_make_some, ?_, ?_, intspan_make_rev, ?_, ?_, ?_⟩
  · exact fun a b li ui s hs => span_make_cont_some a b li ui s hs
  · exact fun a b li ui s hs => span_make_cont_some a b li ui s hs
  · exact fun a b li ui hb => span_make_cont_rev a b li ui hb
  · exact fun a b li ui hb => span_make_cont_rev a b li ui hb
  · intro a b; rfl

/-- Witness for C5: `intspan_make 1 5 true true` stores `[1,6)` and is
valid; `intspan_make 5 3` (reversed bounds) is rejected. -/
theorem span_constructors_valid_witness :
    ((⟨1, 6, true, false⟩ : Span Int).lower < (⟨1, 6, true, false⟩ : Span Int).upper ∧
      (⟨1, 6, true, false⟩ : Span Int).lower_inc = true ∧
      (⟨1, 6, true, false⟩ : Span Int).upper_inc = false ∧
      (⟨1, 6, true, false⟩ : Span Int).Valid) ∧
    intspan_make 5 3 true true = none :=
  ⟨span_constructors_valid.1 1 5 true true ⟨1, 6, true, false⟩ (by decide),
   span_constructors_valid.2.2.2.1 5 3 true true (by decide)⟩

/-- C7: the integer spans `[1,5)` and `[5,10)` are adjacent and their
union is the single span `[1,10)`. -/
theorem adjacent_union_boundary_scenario :
    span_adjacent (⟨1, 5, true, false⟩ : Span Int) ⟨5, 10, true, false⟩ ∧
    union_span_span (⟨1, 5, true, false⟩ : Span Int) ⟨5, 10, true, false⟩ =
      some ⟨[⟨1, 10, true, false⟩], ⟨1, 10, true, false⟩⟩ := by
  decide

theorem span_lower_le_refl (s : Span α) : span_lower_le s s :=
  Or.inr ⟨rfl, fun h => h⟩

theorem span_lower_le_trans {a b c : Span α}
    (h1 : span_lower_le a b) (h2 : span_lower_le b c) : span_lower_le a c := by
  rcases h1 with h1 | ⟨he1, hi1⟩
  · rcases h2 with h2 | ⟨he2, -⟩
    · exact Or.inl (lt_trans h1 h2)
    · exact Or.inl (he2 ▸ h1)
  · rcases h2 with h2 | ⟨he2, hi2⟩
    · exact Or.inl (he1 ▸ h2)
    · exact Or.inr ⟨he1.trans he2, fun h => hi1 (hi2 h)⟩

theorem span_lower_le_total (a b : Span α) : span_lower_le a b ∨ span_lower_le b a := by
  rcases lt_trichotomy a.lower b.lower with h | h | h
  · exact Or.inl (Or.inl h)
  · cases ha : a.lower_inc <;> cases hb : b.lower_inc
    · exact Or.inl (Or.inr ⟨h, by simp [hb]⟩)
    · exact Or.inr (Or.inr ⟨h.symm, by simp [ha]⟩)
    · exact Or.inl (Or.inr ⟨h, by simp [ha]⟩)
    · exact Or.inl (Or.inr ⟨h, by simp [ha]⟩)
  · exact Or.inr (Or.inl h)

instance : IsTotal (Span α) span_lower_le := ⟨span_lower_le_total⟩

instance : IsTrans (Span α) span_lower_le := ⟨fun _ _ _ => span_lower_le_trans⟩

/-- A bound comparison admits a weaker value inequality. -/
theorem lowLE_le {l u : α} {li ui : Bool} (h : lowLE l li u ui) : l ≤ u :=
  h.elim le_of_lt fun h' => le_of_eq h'.1

/-- Crossing from a span's lower bound through a later span's interior:
the first conjunct of the overlap test holds whenever the spans are
ordered and the second is valid. -/
theorem lowLE_of_lle_of_valid {s1 s2 : Span α}
    (h : span_lower_le s1 s2) (hv : s2.Valid) :
    lowLE s1.lower s1.lower_inc s2.upper s2.upper_inc := by
  rcases h with h1 | ⟨he, himp⟩
  · rcases hv with hv | ⟨he2, -, -⟩
    · exact Or.inl (lt_trans h1 hv)
    · exact Or.inl (he2 ▸ h1)
  · rcases hv with hv | ⟨he2, hli, hui⟩
    · exact Or.inl (he ▸ hv)
    · exact Or.inr ⟨he.trans he2, himp hli, hui⟩

/-- Two ordered valid spans that neither overlap nor touch are separated
by a gap. -/
theorem gap_of_not_canMerge {cur s : Span α} (hm : canMergeB cur s = false)
    (hlle : span_lower_le cur s) (hsv : s.Valid) : gapB cur s := by
  have hm' : ¬ span_overlaps cur s ∧ ¬ span_adjacent cur s := by
    simpa [canMergeB, Bool.or_eq_false_iff, decide_eq_false_iff_not] using hm
  have hov1 : lowLE cur.lower cur.lower_inc s.upper s.upper_inc :=
    lowLE_of_lle_of_valid hlle hsv
  have hov2 : ¬ lowLE s.lower s.lower_inc cur.upper cur.upper_inc :=
    fun hc => hm'.1 ⟨hov1, hc⟩
  unfold lowLE at hov2
  push_neg at hov2
  rcases lt_or_eq_of_le hov2.1 with h | h
  · exact Or.inl h
  · have hna : ¬ (cur.upper = s.lower ∧ cur.upper_inc ≠ s.lower_inc) :=
      fun hc => hm'.2 (Or.inl hc)
    have hflags := hov2.2 h.symm
    cases hcu : cur.upper_inc <;> cases hsl : s.lower_inc
    · exact Or.inr ⟨h, hcu, hsl⟩
    · exact absurd ⟨h, by simp [hcu, hsl]⟩ hna
    · exact absurd ⟨h, by simp [hcu, hsl]⟩ hna
    · exact absurd hcu (hflags hsl)

/-- A gap to a span propagates to every span at or after it. -/
theorem gapB_mono {a s x : Span α} (hg : gapB a s) (hl : span_lower_le s x) :
    gapB a x := by
  rcases hg with hg | ⟨he, hui, hsi⟩
  · rcases hl with hl | ⟨he2, -⟩
    · exact Or.inl (lt_trans hg hl)
    · exact Or.inl (he2 ▸ hg)
  · rcases hl with hl | ⟨he2, himp⟩
    · exact Or.inl (he ▸ hl)
    · cases hxi : x.lower_inc
      · exact Or.inr ⟨he.trans he2, hui, hxi⟩
      · exact absurd (himp hxi) (by simp [hsi])

/-- A gap implies strict lower-bound order, for a valid first span. -/
theorem gapB_lle {a b : Span α} (hg : gapB a b) (hav : a.Valid) :
    span_lower_le a b := by
  rcases hg with hg | ⟨he, hui, -⟩
  · rcases hav with hav | ⟨he2, -, -⟩
    · exact Or.inl (lt_trans hav hg)
    · exact Or.inl (he2 ▸ hg)
  · rcases hav with hav | ⟨-, -, hui2⟩
    · exact Or.inl (he ▸ hav)
    · exact absurd hui2 (by simp [hui])

/-- Spans separated by a gap are not adjacent. -/
theorem gapB_not_adjacent {a b : Span α} (hg : gapB a b)
    (hav : a.Valid) (hbv : b.Valid) : ¬ span_adjacent a b := by
  rintro (⟨he, hne⟩ | ⟨he2, hne⟩)
  · rcases hg with hg | ⟨-, hui, hbi⟩
    · exact lt_irrefl _ (he ▸ hg)
    · exact hne (hui.trans hbi.symm)
  · have h1 : a.lower ≤ a.upper := lowLE_le hav
    have h2 : a.upper ≤ b.lower := hg.elim le_of_lt fun h' => le_of_eq h'.1
    have h3 : b.lower ≤ b.upper := lowLE_le hbv
    have hba : b.lower ≤ a.upper := h3.trans ((le_of_eq he2).trans h1)
    have haub : a.upper = b.lower := le_antisymm h2 hba
    rcases hg with hlt | ⟨-, huif, -⟩
    · rw [haub] at hlt; exact lt_irrefl _ hlt
    · have halu : a.lower = a.upper :=
        le_antisymm h1 ((le_of_eq haub).trans (h3.trans (le_of_eq he2)))
      rcases hav with hlt | ⟨-, -, hui2⟩
      · rw [halu] at hlt; exact lt_irrefl _ hlt
      · rw [hui2] at huif; simp at huif

/-- Spans separated by a gap share no point. -/
theorem gapB_disjoint {a b : Span α} (hg : gapB a b) :
    ∀ x : α, ¬ (a.mem x ∧ b.mem x) := by
  rintro x ⟨hxa, hxb⟩
  have hxu : x ≤ a.upper := hxa.2.elim le_of_lt fun h' => le_of_eq h'.1
  have hbx : b.lower ≤ x := hxb.1.elim le_of_lt fun h' => le_of_eq h'.1
  rcases hg with hg | ⟨he, hui, hbi⟩
  · exact lt_irrefl x (lt_of_le_of_lt hxu (lt_of_lt_of_le hg hbx))
  · rcases hxa.2 with h | ⟨-, hflag⟩
    · rcases hxb.1 with h2 | ⟨-, hflag2⟩
      · exact lt_irrefl x (lt_trans (he ▸ h) h2)
      · exact absurd hflag2 (by simp [hbi])
    · exact absurd hflag (by simp [hui])

/-- When the spans are ordered, the looser lower bound is the first
span's. -/
theorem minLowerBnd_of_le {s1 s2 : Span α} (h : span_lower_le s1 s2) :
    minLowerBnd s1 s2 = (s1.lower, s1.lower_inc) := by
  unfold minLowerBnd
  rcases h with h1 | ⟨he, himp⟩
  · rw [if_pos h1]
  · rw [if_neg (by simp [he]), if_neg (by simp [he])]
    cases hli2 : s2.lower_inc
    · simp
    · simp [himp hli2]

/-- The looser of two upper bounds reaches at least as far as the
first. -/
theorem lowLE_maxUpperBnd_left (s1 s2 : Span α) (l : α) (li : Bool)
    (h : lowLE l li s1.upper s1.upper_inc) :
    lowLE l li (maxUpperBnd s1 s2).1 (maxUpperBnd s1 s2).2 := by
  unfold maxUpperBnd
  rcases lt_trichotomy s1.upper s2.upper with ht | ht | ht
  · rw [if_pos ht]
    rcases h with h2 | ⟨he, -, -⟩
    · exact Or.inl (lt_trans h2 ht)
    · exact Or.inl (he ▸ ht)
  · rw [if_neg (by simp [ht]), if_neg (by simp [ht])]
    rcases h with h2 | ⟨he, hli, hui⟩
    · exact Or.inl h2
    · exact Or.inr ⟨he, hli, by simp [hui]⟩
  · rw [if_neg (not_lt_of_gt ht), if_pos ht]
    exact h

/-- The union span of two ordered spans keeps the first span's lower
bound. -/
theorem spanUnion_eq_mk {cur s : Span α} (h : span_lower_le cur s) :
    spanUnion cur s =
      ⟨cur.lower, (maxUpperBnd cur s).1, cur.lower_inc, (maxUpperBnd cur s).2⟩ := by
  unfold spanUnion
  rw [minLowerBnd_of_le h]

/-- The union of an ordered pair of spans is valid when the first is. -/
theorem spanUnion_valid {cur s : Span α} (h : span_lower_le cur s)
    (hcv : cur.Valid) : (spanUnion cur s).Valid := by
  rw [spanUnion_eq_mk h]
  exact lowLE_maxUpperBnd_left cur s cur.lower cur.lower_inc hcv

/-- Transport a pairwise relation along a validity-aware pointwise
implication. -/
theorem pairwise_imp_valid {R S : Span α → Span α → Prop} :
    ∀ l : List (Span α), (∀ s ∈ l, s.Valid) →
      (∀ a b : Span α, a.Valid → b.Valid → R a b → S a b) →
      List.Pairwise R l → List.Pairwise S l
  | [], _, _, _ => List.Pairwise.nil
  | a :: l, hv, H, hp => by
    rcases List.pairwise_cons.mp hp with ⟨hhead, htail⟩
    exact List.Pairwise.cons
      (fun b hb => H a b (hv a (List.mem_cons_self a l))
        (hv b (List.mem_cons_of_mem a hb)) (hhead b hb))
      (pairwise_imp_valid l (fun s hs => hv s (List.mem_cons_of_mem a hs)) H htail)

/-- The normalization sweep: over a sorted list of valid spans it
produces a nonempty list of valid spans that starts at the current
span's lower bound, stays at or after it, and is pairwise separated by
gaps. -/
theorem mergeSpans_spec :
    ∀ (rest : List (Span α)) (cur : Span α), cur.Valid →
      (∀ s ∈ rest, s.Valid) → (∀ s ∈ rest, span_lower_le cur s) →
      List.Pairwise span_lower_le rest →
      (∀ x ∈ mergeSpans cur rest, x.Valid) ∧
      (∀ x ∈ mergeSpans cur rest, span_lower_le cur x) ∧
      (∃ (u : α) (ui : Bool) (tl : List (Span α)),
        mergeSpans cur rest = (⟨cur.lower, u, cur.lower_inc, ui⟩ : Span α) :: tl) ∧
      List.Pairwise gapB (mergeSpans cur rest)
  | [], cur, hcv, _, _, _ => by
    refine ⟨?_, ?_, ⟨cur.upper, cur.upper_inc, [], rfl⟩, ?_⟩
    · intro x hx
      rw [show mergeSpans cur [] = [cur] from rfl, List.mem_singleton] at hx
      exact hx ▸ hcv
    · intro x hx
      rw [show mergeSpans cur [] = [cur] from rfl, List.mem_singleton] at hx
      exact hx ▸ span_lower_le_refl cur
    · exact List.pairwise_singleton _ _
  | s :: rest, cur, hcv, hv, hall, hp => by
    have heq : mergeSpans cur (s :: rest) =
        if canMergeB cur s then mergeSpans (spanUnion cur s) rest
        else cur :: mergeSpans s rest := rfl
    have hlles : span_lower_le cur s := hall s (List.mem_cons_self s rest)
    have hsv : s.Valid := hv s (List.mem_cons_self s rest)
    rcases List.pairwise_cons.mp hp with ⟨hshead, hptail⟩
    by_cases hm : canMergeB cur s = true
    · rw [heq, if_pos hm]
      have hcv' : (spanUnion cur s).Valid := spanUnion_valid hlles hcv
      have hu := spanUnion_eq_mk hlles
      have hall' : ∀ x ∈ rest, span_lower_le (spanUnion cur s) x := by
        intro x hx
        rw [hu]
        exact hall x (List.mem_cons_of_mem s hx)
      have hv' : ∀ x ∈ rest, x.Valid := fun x hx => hv x (List.mem_cons_of_mem s hx)
      obtain ⟨hva, hle, ⟨u, ui, tl, hshape⟩, hpw⟩ :=
        mergeSpans_spec rest (spanUnion cur s) hcv' hv' hall' hptail
      refine ⟨hva, ?_, ?_, hpw⟩
      · intro x hx
        have := hle x hx
        rw [hu] at this
        exact this
      · rw [hu] at hshape ⊢
        exact ⟨u, ui, tl, hshape⟩
    · rw [heq, if_neg hm]
      have hmf : canMergeB cur s = false := by
        revert hm; cases canMergeB cur s <;> simp
      have hgap : gapB cur s := gap_of_not_canMerge hmf hlles hsv
      obtain ⟨hva, hle, ⟨u, ui, tl, hshape⟩, hpw⟩ :=
        mergeSpans_spec rest s hsv
          (fun x hx => hv x (List.mem_cons_of_mem s hx)) hshead hptail
      refine ⟨?_, ?_, ?_, ?_⟩
      · intro x hx
        rcases List.mem_cons.mp hx with rfl | hx'
        · exact hcv
        · exact hva x hx'
      · intro x hx
        rcases List.mem_cons.mp hx with rfl | hx'
        · exact span_lower_le_refl x
        · exact span_lower_le_trans hlles (hle x hx')
      · exact ⟨cur.upper, cur.upper_inc, mergeSpans s rest, rfl⟩
      · refine List.pairwise_cons.mpr ⟨?_, hpw⟩
        intro x hx
        exact gapB_mono hgap (hle x hx)

/-- A successful `spanset_make` on valid spans establishes the span-set
invariant. -/
theorem spanset_make_inv (l : List (Span α)) (ss : SpanSet α)
    (hall : ∀ s ∈ l, s.Valid) (hmk : spanset_make l = some ss) :
    SpanSetInv ss := by
  have hsorted0 : List.Pairwise span_lower_le (List.insertionSort span_lower_le l) :=
    List.sorted_insertionSort span_lower_le l
  have hvall0 : ∀ s ∈ List.insertionSort span_lower_le l, s.Valid := fun s hsm =>
    hall s ((List.mem_insertionSort span_lower_le).mp hsm)
  unfold spanset_make normSpans at hmk
  cases hs : List.insertionSort span_lower_le l with
  | nil =>
    rw [hs] at hmk
    simp at hmk
  | cons c r =>
    rw [hs] at hmk hsorted0 hvall0
    dsimp only at hmk
    rcases List.pairwise_cons.mp hsorted0 with ⟨hchead, hctail⟩
    obtain ⟨hva, hle, ⟨u, ui, tl, hshape⟩, hpw⟩ :=
      mergeSpans_spec r c (hvall0 c (List.mem_cons_self c r))
        (fun x hx => hvall0 x (List.mem_cons_of_mem c hx)) hchead hctail
    rw [hshape] at hmk hva hpw
    dsimp only at hmk
    injection hmk with hmk
    subst hmk
    refine ⟨List.cons_ne_nil _ _, ?_, hpw, ?_, ?_, hva, rfl, List.cons_ne_nil _ _, rfl, rfl⟩
    · exact pairwise_imp_valid _ hva (fun a b hav _ hr => gapB_lle hr hav) hpw
    · exact pairwise_imp_valid _ hva (fun a b hav hbv hr => gapB_not_adjacent hr hav hbv) hpw
    · exact List.Pairwise.imp (fun hg => gapB_disjoint hg) hpw

/-- Elements produced under a validity guard are valid. -/
theorem mem_if_valid_list {x s : Span α} (h : s ∈ if x.Valid then [x] else []) :
    s.Valid := by
  split at h
  · rename_i hc
    rw [List.mem_singleton] at h
    exact h ▸ hc
  · simp at h

/-- C4: every span set produced by construction (`spanset_make`) or by
the span algebra operations returning span sets (`union_span_span`,
`minus_span_span`) satisfies the normalization invariant: at least one
element, elements sorted by lower bound, pairwise disjoint and
non-adjacent, and the cached bounding span equal to the derived
`spanset_span`, running from the first element's lower bound to the
last element's upper bound. -/
theorem spanset_algebra_inv :
    (∀ (l : List (Span α)) (ss : SpanSet α), (∀ s ∈ l, s.Valid) →
      spanset_make l = some ss → SpanSetInv ss) ∧
    (∀ (s1 s2 : Span α) (ss : SpanSet α), s1.Valid → s2.Valid →
      union_span_span s1 s2 = some ss → SpanSetInv ss) ∧
    (∀ (s1 s2 : Span α) (ss : SpanSet α), s1.Valid → s2.Valid →
      minus_span_span s1 s2 = some ss → SpanSetInv ss) := by
  refine ⟨spanset_make_inv, ?_, ?_⟩
  · intro s1 s2 ss h1 h2 hmk
    refine spanset_make_inv [s1, s2] ss ?_ hmk
    intro s hs
    rcases List.mem_cons.mp hs with rfl | hs'
    · exact h1
    · rw [List.mem_singleton] at hs'
      exact hs' ▸ h2
  · intro s1 s2 ss h1 h2 hmk
    unfold minus_span_span at hmk
    split at hmk
    · dsimp only at hmk
      refine spanset_make_inv _ ss ?_ hmk
      intro s hs
      rcases List.mem_append.mp hs with h | h <;> exact mem_if_valid_list h
    · refine spanset_make_inv [s1] ss ?_ hmk
      intro s hs
      rw [List.mem_singleton] at hs
      exact hs ▸ h1

/-- Witness for C4 at a concrete two-span construction over `Int`. -/
theorem spanset_algebra_inv_witness :
    spanset_make [(⟨3, 5, true, false⟩ : Span Int), ⟨1, 2, true, true⟩] =
      some ⟨[⟨1, 2, true, true⟩, ⟨3, 5, true, false⟩], ⟨1, 5, true, false⟩⟩ ∧
    SpanSetInv (⟨[⟨1, 2, true, true⟩, ⟨3, 5, true, false⟩], ⟨1, 5, true, false⟩⟩ :
      SpanSet Int) :=
  have hmk : spanset_make [(⟨3, 5, true, false⟩ : Span Int), ⟨1, 2, true, true⟩] =
      some ⟨[⟨1, 2, true, true⟩, ⟨3, 5, true, false⟩], ⟨1, 5, true, false⟩⟩ := by decide
  ⟨hmk, (spanset_algebra_inv (α := Int)).1 _ _ (by decide) hmk⟩

/-- The strict-increase check is pairwise strict timestamp order. -/
theorem strictIncB_iff_pairwise :
    ∀ l : List (TInstant α), strictIncB l = true ↔
      List.Pairwise (fun a b : TInstant α => a.t < b.t) l
  | [] => by simp [strictIncB]
  | [a] => by simp [strictIncB]
  | a :: b :: r => by
    rw [show strictIncB (a :: b :: r) = (decide (a.t < b.t) && strictIncB (b :: r)) from rfl]
    rw [Bool.and_eq_true, decide_eq_true_eq]
    rw [strictIncB_iff_pairwise (b :: r)]
    constructor
    · rintro ⟨hab, hp⟩
      refine List.pairwise_cons.mpr ⟨?_, hp⟩
      intro x hx
      rcases List.mem_cons.mp hx with rfl | hx'
      · exact hab
      · rcases List.pairwise_cons.mp hp with ⟨hb, -⟩
        exact lt_trans hab (hb x hx')
    · intro hp
      rcases List.pairwise_cons.mp hp with ⟨ha, hp'⟩
      exact ⟨ha b (List.mem_cons_self b r), hp'⟩

/-- C9: constructing a sequence from any nonempty strictly increasing
instant array succeeds, and reading back the `n`-th instant (1-based)
returns the original instants in their original order. -/
theorem tsequence_make_instant_n_roundtrip (l : List (TInstant α))
    (linc uinc : Bool) (interp : Interp) (hne : l ≠ [])
    (hs : strictIncB l = true)
    (hflags : interp = Interp.discrete → linc = true ∧ uinc = true) :
    ∃ seq : TSeq α, tsequence_make l linc uinc interp = some seq ∧
      ∀ n : Nat, 1 ≤ n → n ≤ l.length →
        temporal_instant_n (Temporal.seq seq) n = l.get? (n - 1) ∧
        (l.get? (n - 1)).isSome = true := by
  refine ⟨⟨l, linc, uinc, interp⟩, ?_, ?_⟩
  · have hcond : ¬ (interp = Interp.discrete ∧ (linc = false ∨ uinc = false)) := by
      rintro ⟨hd, hor⟩
      rcases hflags hd with ⟨h1, h2⟩
      rcases hor with h | h
      · rw [h1] at h; simp at h
      · rw [h2] at h; simp at h
    unfold tsequence_make
    rw [if_neg hne, if_pos hs, if_neg hcond]
  · intro n h1 h2
    refine ⟨rfl, ?_⟩
    have hlt : n - 1 < l.length := by omega
    rw [List.get?_eq_get hlt]
    rfl

/-- Witness for C9 at the concrete two-instant integer sequence. -/
theorem tsequence_make_instant_n_roundtrip_witness :
    ∃ seq : TSeq Int,
      tsequence_make [⟨10, 0⟩, ⟨20, 5⟩] true true Interp.discrete = some seq ∧
      ∀ n : Nat, 1 ≤ n → n ≤ ([⟨10, 0⟩, ⟨20, 5⟩] : List (TInstant Int)).length →
        temporal_instant_n (Temporal.seq seq) n =
          ([⟨10, 0⟩, ⟨20, 5⟩] : List (TInstant Int)).get? (n - 1) ∧
        (([⟨10, 0⟩, ⟨20, 5⟩] : List (TInstant Int)).get? (n - 1)).isSome = true :=
  tsequence_make_instant_n_roundtrip [⟨10, 0⟩, ⟨20, 5⟩] true true Interp.discrete
    (by decide) (by decide) (fun _ => ⟨rfl, rfl⟩)

/-- A random height never exceeds the maximum level. -/
theorem randHeight_le (s : Nat) : randHeight s ≤ SKIPLIST_MAXLEVEL :=
  Nat.succ_le_of_lt (Nat.mod_lt s (by decide))

/-- Skip-list insertion preserves the height bound: combining keeps the
existing node's height, a fresh node's height is freshly drawn. -/
theorem slInsert_height (n : SLNode) (hn : n.height ≤ SKIPLIST_MAXLEVEL) :
    ∀ l : List SLNode, (∀ m ∈ l, m.height ≤ SKIPLIST_MAXLEVEL) →
      ∀ x ∈ slInsert n l, x.height ≤ SKIPLIST_MAXLEVEL
  | [], _, x, hx => by
    rw [show slInsert n [] = [n] from rfl, List.mem_singleton] at hx
    exact hx ▸ hn
  | m :: rest, hl, x, hx => by
    rw [show slInsert n (m :: rest) =
        if n.t < m.t then n :: m :: rest
        else if n.t = m.t then { m with count := m.count + n.count } :: rest
        else m :: slInsert n rest from rfl] at hx
    split at hx
    · rcases List.mem_cons.mp hx with rfl | hx'
      · exact hn
      · exact hl x hx'
    · split at hx
      · rcases List.mem_cons.mp hx with rfl | hx'
        · exact hl m (List.mem_cons_self m rest)
        · exact hl x (List.mem_cons_of_mem m hx')
      · rcases List.mem_cons.mp hx with rfl | hx'
        · exact hl x (List.mem_cons_self x rest)
        · exact slInsert_height n hn rest
            (fun y hy => hl y (List.mem_cons_of_mem m hy)) x hx'

/-- C10: every node of the aggregation state respects
`SKIPLIST_MAXLEVEL = 32`, and the bound is preserved by every
`temporal_tcount_transfn` transition, for any number of folded
instants. -/
theorem tcount_transfn_height_bound (state : Option SkipListState)
    (temp : Temporal α)
    (h : ∀ n ∈ (state.getD ⟨[], 0⟩).elems, n.height ≤ SKIPLIST_MAXLEVEL) :
    SKIPLIST_MAXLEVEL = 32 ∧
    ∀ n ∈ (temporal_tcount_transfn state temp).elems,
      n.height ≤ SKIPLIST_MAXLEVEL := by
  refine ⟨rfl, ?_⟩
  unfold temporal_tcount_transfn
  have hfold : ∀ (l : List (TInstant α)) (st : SkipListState),
      (∀ n ∈ st.elems, n.height ≤ SKIPLIST_MAXLEVEL) →
      ∀ n ∈ (l.foldl tcountStep st).elems, n.height ≤ SKIPLIST_MAXLEVEL := by
    intro l
    induction l with
    | nil => exact fun st h' n hn => h' n hn
    | cons i rest ih =>
      intro st h' n hn
      rw [List.foldl_cons] at hn
      exact ih (tcountStep st i)
        (fun m hm => slInsert_height _ (randHeight_le _) _ h' m hm) n hn
  exact hfold temp.instants _ h

/-- Witness for C10: one transition on the empty state. -/
theorem tcount_transfn_height_bound_witness :
    SKIPLIST_MAXLEVEL = 32 ∧
    ∀ n ∈ (temporal_tcount_transfn (α := Int) none (Temporal.inst ⟨1, 0⟩)).elems,
      n.height ≤ SKIPLIST_MAXLEVEL :=
  tcount_transfn_height_bound none (Temporal.inst ⟨1, 0⟩)
    (fun n hn => absurd hn (List.not_mem_nil n))

/-- An exact timestamp hit returns the stored value, for any
interpolation and strictness. -/
theorem valueAt_exact (interp : Interp) (strict : Bool) :
    ∀ l : List (TInstant ℚ), List.Pairwise (fun a b : TInstant ℚ => a.t < b.t) l →
      ∀ i ∈ l, valueAtInstants interp strict i.t l = some i.value
  | [], _, i, hi => absurd hi (List.not_mem_nil i)
  | h :: rest, hp, i, hi => by
    rcases List.pairwise_cons.mp hp with ⟨hhead, htail⟩
    rcases List.mem_cons.mp hi with rfl | hi'
    · simp [valueAtInstants]
    · have hlt : h.t < i.t := hhead i hi'
      have hne : ¬ (i.t = h.t) := fun he => absurd (he ▸ hlt) (lt_irrefl _)
      have hnlt : ¬ (i.t < h.t) := fun hl => absurd (lt_trans hlt hl) (lt_irrefl _)
      simp only [valueAtInstants, if_neg hne, if_neg hnlt]
      cases rest with
      | nil => exact absurd hi' (List.not_mem_nil i)
      | cons j r2 =>
        dsimp only
        have hji : ¬ (i.t < j.t) := by
          intro hl
          rcases List.mem_cons.mp hi' with rfl | hi2
          · exact lt_irrefl _ hl
          · rcases List.pairwise_cons.mp htail with ⟨hj, -⟩
            exact lt_irrefl _ (lt_trans (hj i hi2) hl)
        rw [if_neg hji]
        exact valueAt_exact interp strict (j :: r2) htail i hi'

/-- A non-strict lookup strictly between two consecutive instants of a
linear sequence returns their linear blend. -/
theorem valueAt_between :
    ∀ l : List (TInstant ℚ), List.Pairwise (fun a b : TInstant ℚ => a.t < b.t) l →
      ∀ (k : Nat) (i1 i2 : TInstant ℚ) (t : Int),
        l.get? k = some i1 → l.get? (k + 1) = some i2 →
        i1.t < t → t < i2.t →
        valueAtInstants Interp.linear false t l = some (blend i1 i2 t)
  | [], _, k, i1, i2, t, h1, _, _, _ => by simp at h1
  | h :: rest, hp, k, i1, i2, t, h1, h2, ht1, ht2 => by
    rcases List.pairwise_cons.mp hp with ⟨hhead, htail⟩
    cases k with
    | zero =>
      rw [List.get?_cons_zero] at h1
      injection h1 with h1
      subst h1
      rw [List.get?_cons_succ] at h2
      cases rest with
      | nil => simp at h2
      | cons j r2 =>
        rw [List.get?_cons_zero] at h2
        injection h2 with h2
        subst h2
        have hne : ¬ (t = h.t) := fun he => absurd (he ▸ ht1) (lt_irrefl _)
        have hnlt : ¬ (t < h.t) := fun hl => lt_irrefl _ (lt_trans ht1 hl)
        simp only [valueAtInstants, if_neg hne, if_neg hnlt]
        rw [if_pos ht2]
        simp
    | succ n =>
      rw [List.get?_cons_succ] at h1 h2
      have hi1mem : i1 ∈ rest := List.get?_mem h1
      have hh : h.t < i1.t := hhead i1 hi1mem
      have hne : ¬ (t = h.t) := fun he => lt_irrefl _ (he ▸ lt_trans hh ht1)
      have hnlt : ¬ (t < h.t) := fun hl => lt_irrefl _ (lt_trans (lt_trans hh ht1) hl)
      simp only [valueAtInstants, if_neg hne, if_neg hnlt]
      cases rest with
      | nil => simp at h1
      | cons j r2 =>
        dsimp only
        have hjle : ¬ (t < j.t) := by
          intro hl
          cases n with
          | zero =>
            rw [List.get?_cons_zero] at h1
            injection h1 with h1
            subst h1
            exact lt_irrefl _ (lt_trans ht1 hl)
          | succ m =>
            rw [List.get?_cons_succ] at h1
            rcases List.pairwise_cons.mp htail with ⟨hj, -⟩
            exact lt_irrefl _ (lt_trans (lt_trans (hj i1 (List.get?_mem h1)) ht1) hl)
        rw [if_neg hjle]
        exact valueAt_between (j :: r2) htail n i1 i2 t h1 h2 ht1 ht2

/-- C6: for a linear sequence, `value_at_timestamptz` at a stored
instant's timestamp returns that instant's value; strictly between two
bracketing instants with `strict = false` it returns the linear blend;
in particular the sequence `[(t=0,v=0),(t=10,v=10)]` evaluates to `5`
at `t=5`. -/
theorem value_at_timestamptz_linear (seq : TSeq ℚ)
    (hl : seq.interp = Interp.linear) (hs : strictIncB seq.instants = true) :
    (∀ (strict : Bool) (i : TInstant ℚ), i ∈ seq.instants →
      tsequence_value_at_timestamptz seq i.t strict = some i.value) ∧
    (∀ (t : Int) (k : Nat) (i1 i2 : TInstant ℚ),
      seq.instants.get? k = some i1 → seq.instants.get? (k + 1) = some i2 →
      i1.t < t → t < i2.t →
      tsequence_value_at_timestamptz seq t false = some (blend i1 i2 t)) ∧
    tsequence_value_at_timestamptz ⟨[⟨0, 0⟩, ⟨10, 10⟩], true, true, Interp.linear⟩ 5 false =
      some 5 := by
  have hpw := (strictIncB_iff_pairwise seq.instants).mp hs
  refine ⟨?_, ?_, ?_⟩
  · intro strict i hi
    unfold tsequence_value_at_timestamptz
    exact valueAt_exact seq.interp strict seq.instants hpw i hi
  · intro t k i1 i2 h1 h2 ht1 ht2
    unfold tsequence_value_at_timestamptz
    rw [hl]
    exact valueAt_between seq.instants hpw k i1 i2 t h1 h2 ht1 ht2
  · norm_num [tsequence_value_at_timestamptz, valueAtInstants, blend]

/-- Witness for C6 at the linear sequence `[(0,0),(10,10)]`. -/
theorem value_at_timestamptz_linear_witness :
    (∀ (strict : Bool) (i : TInstant ℚ),
      i ∈ (⟨[⟨0, 0⟩, ⟨10, 10⟩], true, true, Interp.linear⟩ : TSeq ℚ).instants →
      tsequence_value_at_timestamptz ⟨[⟨0, 0⟩, ⟨10, 10⟩], true, true, Interp.linear⟩
        i.t strict = some i.value) ∧
    (∀ (t : Int) (k : Nat) (i1 i2 : TInstant ℚ),
      (⟨[⟨0, 0⟩, ⟨10, 10⟩], true, true, Interp.linear⟩ : TSeq ℚ).instants.get? k = some i1 →
      (⟨[⟨0, 0⟩, ⟨10, 10⟩], true, true, Interp.linear⟩ : TSeq ℚ).instants.get? (k + 1) =
        some i2 →
      i1.t < t → t < i2.t →
      tsequence_value_at_timestamptz ⟨[⟨0, 0⟩, ⟨10, 10⟩], true, true, Interp.linear⟩
        t false = some (blend i1 i2 t)) ∧
    tsequence_value_at_timestamptz ⟨[⟨0, 0⟩, ⟨10, 10⟩], true, true, Interp.linear⟩ 5 false =
      some 5 :=
  value_at_timestamptz_linear ⟨[⟨0, 0⟩, ⟨10, 10⟩], true, true, Interp.linear⟩ rfl
    (by decide)

/-- A successful merge keeps every instant of both inputs: no data is
silently dropped. -/
theorem mergeInstantsGo_mem :
    ∀ (fuel : Nat) (l1 l2 m : List (TInstant α)),
      mergeInstantsGo fuel l1 l2 = some m →
      ∀ i : TInstant α, i ∈ l1 ∨ i ∈ l2 → i ∈ m := by
  intro fuel
  induction fuel with
  | zero =>
    intro l1 l2 m h i hi
    cases l1 with
    | nil =>
      have h' : some l2 = some m := h
      injection h' with h'
      subst h'
      exact hi.resolve_left (List.not_mem_nil i)
    | cons i1 r1 =>
      cases l2 with
      | nil =>
        have h' : some (i1 :: r1) = some m := h
        injection h' with h'
        subst h'
        exact hi.resolve_right (List.not_mem_nil i)
      | cons i2 r2 => exact absurd h (by simp [mergeInstantsGo])
  | succ f ih =>
    intro l1 l2 m h i hi
    cases l1 with
    | nil =>
      have h' : some l2 = some m := h
      injection h' with h'
      subst h'
      exact hi.resolve_left (List.not_mem_nil i)
    | cons i1 r1 =>
      cases l2 with
      | nil =>
        have h' : some (i1 :: r1) = some m := h
        injection h' with h'
        subst h'
        exact hi.resolve_right (List.not_mem_nil i)
      | cons i2 r2 =>
        simp only [mergeInstantsGo] at h
        split at h
        · cases hm : mergeInstantsGo f r1 (i2 :: r2) with
          | none => rw [hm] at h; simp at h
          | some m' =>
            rw [hm] at h
            simp at h
            subst h
            rcases hi with hi | hi
            · rcases List.mem_cons.mp hi with rfl | hi'
              · exact List.mem_cons_self _ _
              · exact List.mem_cons_of_mem _ (ih r1 (i2 :: r2) m' hm i (Or.inl hi'))
            · exact List.mem_cons_of_mem _ (ih r1 (i2 :: r2) m' hm i (Or.inr hi))
        · split at h
          · cases hm : mergeInstantsGo f (i1 :: r1) r2 with
            | none => rw [hm] at h; simp at h
            | some m' =>
              rw [hm] at h
              simp at h
              subst h
              rcases hi with hi | hi
              · exact List.mem_cons_of_mem _ (ih (i1 :: r1) r2 m' hm i (Or.inl hi))
              · rcases List.mem_cons.mp hi with rfl | hi'
                · exact List.mem_cons_self _ _
                · exact List.mem_cons_of_mem _ (ih (i1 :: r1) r2 m' hm i (Or.inr hi'))
          · split at h
            · rename_i hnlt1 hnlt2 hveq
              cases hm : mergeInstantsGo f r1 r2 with
              | none => rw [hm] at h; simp at h
              | some m' =>
                rw [hm] at h
                simp at h
                subst h
                have hteq : i1.t = i2.t :=
                  le_antisymm (le_of_not_lt hnlt2) (le_of_not_lt hnlt1)
                have hi12 : i1 = i2 := by
                  cases i1 with
                  | mk v1 t1 =>
                    cases i2 with
                    | mk v2 t2 =>
                      dsimp at hveq hteq
                      rw [hveq, hteq]
                rcases hi with hi | hi
                · rcases List.mem_cons.mp hi with rfl | hi'
                  · exact List.mem_cons_self _ _
                  · exact List.mem_cons_of_mem _ (ih r1 r2 m' hm i (Or.inl hi'))
                · rcases List.mem_cons.mp hi with rfl | hi'
                  · rw [← hi12]; exact List.mem_cons_self _ _
                  · exact List.mem_cons_of_mem _ (ih r1 r2 m' hm i (Or.inr hi'))
            · exact absurd h (by simp)

/-- A successful merge certifies that the inputs agree wherever their
timestamps coincide. -/
theorem mergeInstantsGo_agree :
    ∀ (fuel : Nat) (l1 l2 m : List (TInstant α)),
      List.Pairwise (fun a b : TInstant α => a.t < b.t) l1 →
      List.Pairwise (fun a b : TInstant α => a.t < b.t) l2 →
      mergeInstantsGo fuel l1 l2 = some m →
      ∀ i1 ∈ l1, ∀ i2 ∈ l2, i1.t = i2.t → i1.value = i2.value := by
  intro fuel
  induction fuel with
  | zero =>
    intro l1 l2 m _ _ h i1 hi1 i2 hi2 _
    cases l1 with
    | nil => exact absurd hi1 (List.not_mem_nil i1)
    | cons a r1 =>
      cases l2 with
      | nil => exact absurd hi2 (List.not_mem_nil i2)
      | cons b r2 => exact absurd h (by simp [mergeInstantsGo])
  | succ f ih =>
    intro l1 l2 m hp1 hp2 h i1 hi1 i2 hi2 hteq
    cases l1 with
    | nil => exact absurd hi1 (List.not_mem_nil i1)
    | cons a r1 =>
      cases l2 with
      | nil => exact absurd hi2 (List.not_mem_nil i2)
      | cons b r2 =>
        rcases List.pairwise_cons.mp hp1 with ⟨h1head, h1tail⟩
        rcases List.pairwise_cons.mp hp2 with ⟨h2head, h2tail⟩
        simp only [mergeInstantsGo] at h
        split at h
        · rename_i hab
          cases hm : mergeInstantsGo f r1 (b :: r2) with
          | none => rw [hm] at h; simp at h
          | some m' =>
            rcases List.mem_cons.mp hi1 with rfl | hi1'
            · rcases List.mem_cons.mp hi2 with rfl | hi2'
              · exact absurd hteq (ne_of_lt hab)
              · exact absurd hteq (ne_of_lt (lt_trans hab (h2head i2 hi2')))
            · exact ih r1 (b :: r2) m' h1tail hp2 hm i1 hi1' i2 hi2 hteq
        · split at h
          · rename_i hba
            cases hm : mergeInstantsGo f (a :: r1) r2 with
            | none => rw [hm] at h; simp at h
            | some m' =>
              rcases List.mem_cons.mp hi2 with rfl | hi2'
              · rcases List.mem_cons.mp hi1 with rfl | hi1'
                · exact absurd hteq.symm (ne_of_lt hba)
                · exact absurd hteq (ne_of_gt (lt_trans hba (h1head i1 hi1')))
              · exact ih (a :: r1) r2 m' hp1 h2tail hm i1 hi1 i2 hi2' hteq
          · split at h
            · rename_i hnlt1 hnlt2 hveq
              have habt : a.t = b.t :=
                le_antisymm (le_of_not_lt hnlt2) (le_of_not_lt hnlt1)
              cases hm : mergeInstantsGo f r1 r2 with
              | none => rw [hm] at h; simp at h
              | some m' =>
                rcases List.mem_cons.mp hi1 with rfl | hi1'
                · rcases List.mem_cons.mp hi2 with rfl | hi2'
                  · exact hveq
                  · exact absurd hteq (ne_of_lt (habt ▸ h2head i2 hi2'))
                · rcases List.mem_cons.mp hi2 with rfl | hi2'
                  · exact absurd hteq (ne_of_gt (habt ▸ h1head i1 hi1'))
                  · exact ih r1 r2 m' h1tail h2tail hm i1 hi1' i2 hi2' hteq
            · exact absurd h (by simp)

/-- Whatever `temporal_from_instants` returns carries exactly the given
instants. -/
theorem temporal_from_instants_instants (interp : Interp) :
    ∀ (l : List (TInstant α)) (t : Temporal α),
      temporal_from_instants interp l = some t → t.instants = l
  | [], t, h => by simp [temporal_from_instants] at h
  | [i], t, h => by
    by_cases hd : interp = Interp.discrete
    · simp only [temporal_from_instants, if_pos hd] at h
      injection h with h
      subst h
      rfl
    · simp only [temporal_from_instants, if_neg hd] at h
      injection h with h
      subst h
      rfl
  | a :: b :: r, t, h => by
    have h' : some (Temporal.seq ⟨a :: b :: r, true, true, interp⟩ : Temporal α) = some t := h
    injection h' with h'
    subst h'
    rfl

/-- Counterexample to C8 as stated: the discrete temporal value with
instants at t=0 and t=2 and the instant at t=1 have overlapping,
non-touching time spans ([0,2] vs [1,1]), yet `temporal_merge`
succeeds, because their instant sets interleave without a timestamp
conflict. -/
theorem temporal_merge_overlap_succeeds :
    ¬ merge_spans_compatible
        (Temporal.seq ⟨[⟨5, 0⟩, ⟨7, 2⟩], true, true, Interp.discrete⟩ : Temporal Int)
        (Temporal.inst ⟨9, 1⟩) ∧
    temporal_merge
        (some (Temporal.seq ⟨[⟨5, 0⟩, ⟨7, 2⟩], true, true, Interp.discrete⟩ :
          Temporal Int))
        (some (Temporal.inst ⟨9, 1⟩)) ≠ none := by
  decide

/-- C8 (amended): a merge of two well-formed temporal values fails —
returning the absent value and recording the invalid-argument error
code in the error sink — whenever the inputs carry different values at
a common timestamp; and a successful merge never silently drops data:
the result contains every instant of both inputs. -/
theorem temporal_merge_err_conflict :
    (∀ t1 t2 : Temporal α, TemporalWF t1 → TemporalWF t2 →
      (∃ i1 ∈ t1.instants, ∃ i2 ∈ t2.instants, i1.t = i2.t ∧ i1.value ≠ i2.value) →
      temporal_merge_err (some t1) (some t2) =
        (none, some MEOS_ERR_INVALID_ARG_VALUE)) ∧
    (∀ t1 t2 r : Temporal α, temporal_merge (some t1) (some t2) = some r →
      ∀ i : TInstant α, (i ∈ t1.instants ∨ i ∈ t2.instants) → i ∈ r.instants) := by
  constructor
  · intro t1 t2 h1 h2 hc
    obtain ⟨i1, hi1, i2, hi2, hteq, hvne⟩ := hc
    have hp1 := (strictIncB_iff_pairwise t1.instants).mp h1.2
    have hp2 := (strictIncB_iff_pairwise t2.instants).mp h2.2
    have hnone : temporal_merge (some t1) (some t2) = none := by
      rw [show temporal_merge (some t1) (some t2) =
          (if t1.interpOf = t2.interpOf then
            match mergeInstants t1.instants t2.instants with
            | none => none
            | some l' => temporal_from_instants t1.interpOf l'
          else none) from rfl]
      by_cases hint : t1.interpOf = t2.interpOf
      · rw [if_pos hint]
        cases hm : mergeInstants t1.instants t2.instants with
        | none => rfl
        | some m =>
          exact absurd
            (mergeInstantsGo_agree _ t1.instants t2.instants m hp1 hp2 hm
              i1 hi1 i2 hi2 hteq) hvne
      · rw [if_neg hint]
    unfold temporal_merge_err
    rw [hnone]
  · intro t1 t2 r h i hi
    rw [show temporal_merge (some t1) (some t2) =
        (if t1.interpOf = t2.interpOf then
          match mergeInstants t1.instants t2.instants with
          | none => none
          | some l' => temporal_from_instants t1.interpOf l'
        else none) from rfl] at h
    split at h
    · cases hm : mergeInstants t1.instants t2.instants with
      | none => rw [hm] at h; exact absurd h (by simp)
      | some m =>
        rw [hm] at h
        have hrm : r.instants = m := temporal_from_instants_instants t1.interpOf m r h
        rw [hrm]
        exact mergeInstantsGo_mem _ t1.instants t2.instants m hm i hi
    · exact absurd h (by simp)

/-- Witness for the amended C8: a timestamp conflict fails with the
error code; a disjoint merge keeps the instants of both inputs. -/
theorem temporal_merge_err_conflict_witness :
    temporal_merge_err (some (Temporal.inst (⟨3, 0⟩ : TInstant Int)))
        (some (Temporal.inst ⟨4, 0⟩)) = (none, some MEOS_ERR_INVALID_ARG_VALUE) ∧
    (⟨3, 0⟩ : TInstant Int) ∈
      (Temporal.seq (⟨[⟨3, 0⟩, ⟨5, 1⟩], true, true, Interp.discrete⟩ : TSeq Int)).instants :=
  ⟨temporal_merge_err_conflict.1 (Temporal.inst ⟨3, 0⟩) (Temporal.inst ⟨4, 0⟩)
      (by decide) (by decide)
      ⟨⟨3, 0⟩, by decide, ⟨4, 0⟩, by decide, rfl, by decide⟩,
    temporal_merge_err_conflict.2 (Temporal.inst ⟨3, 0⟩) (Temporal.inst ⟨5, 1⟩)
      (Temporal.seq ⟨[⟨3, 0⟩, ⟨5, 1⟩], true, true, Interp.discrete⟩) (by decide)
      ⟨3, 0⟩ (Or.inl (by decide))⟩

end Meos
